import Mathlib

/-!
# Verification of the Hamster Wheel Analyzer activity-timeline engine

Shallow embedding of the activity-timeline core of the repository:
the episode segmenter and minimum-streak filter of
`hamster_wheel_analyzer.py`, and the statistics/aggregation module of
`Hamster_stats.py` (duration/time parsing, hour-bin distribution,
folder processing, cumulative curves).  Machine integers are modelled
as `Nat`/`Int`/`Rat`; fallible code returns `Except`.
-/

namespace HamsterWheel

/-! ## Hour-bin aggregator (`Hamster_stats.add_interval_to_hour_bins`)

The Python loop keeps a cursor `cur` and a `remaining` budget; each
iteration allocates `spill = min(remaining, hour_end - cur)` seconds to
bucket `cur // 3600` when that index is in range, then advances. -/

/-- One-bucket update: add `v` to index `i` of `bins` when `i` is in
range, mirroring `if hour_index < len(hour_bins): hour_bins[hour_index] += spill`. -/
def bumpBin (bins : List Nat) (i v : Nat) : List Nat :=
  if h : i < bins.length then bins.set i (bins.get ⟨i, h⟩ + v) else bins

/-- `add_interval_to_hour_bins`: distribute `remaining` seconds starting
at cursor `cur` into 3600-second buckets, splitting at hour boundaries. -/
def addInterval (cur remaining : Nat) (bins : List Nat) : List Nat :=
  if remaining = 0 then bins
  else
    addInterval (cur + min remaining (3600 - cur % 3600))
      (remaining - min remaining (3600 - cur % 3600))
      (bumpBin bins (cur / 3600) (min remaining (3600 - cur % 3600)))
termination_by remaining
decreasing_by
  have h1 : cur % 3600 < 3600 := Nat.mod_lt _ (by norm_num)
  have h3 : 1 ≤ min remaining (3600 - cur % 3600) := le_min (by omega) (by omega)
  omega

@[simp] theorem bumpBin_length (bins : List Nat) (i v : Nat) :
    (bumpBin bins i v).length = bins.length := by
  unfold bumpBin; split <;> simp

theorem bumpBin_sum (bins : List Nat) (i v : Nat) (h : i < bins.length) :
    (bumpBin bins i v).sum = bins.sum + v := by
  unfold bumpBin
  rw [dif_pos h]
  induction bins generalizing i with
  | nil => simp at h
  | cons b bs ih =>
    cases i with
    | zero => simp [List.sum_cons]; omega
    | succ j =>
      have hj : j < bs.length := by simpa using h
      simp only [List.set_cons_succ, List.sum_cons, List.get_cons_succ]
      rw [ih j hj]
      omega

theorem bumpBin_sum_le (bins : List Nat) (i v : Nat) :
    (bumpBin bins i v).sum ≤ bins.sum + v := by
  by_cases h : i < bins.length
  · rw [bumpBin_sum bins i v h]
  · unfold bumpBin; rw [dif_neg h]; omega

theorem addInterval_length (cur remaining : Nat) (bins : List Nat) :
    (addInterval cur remaining bins).length = bins.length := by
  induction remaining using Nat.strong_induction_on generalizing cur bins with
  | _ remaining ih =>
    rw [addInterval]
    by_cases h0 : remaining = 0
    · simp [h0]
    · rw [if_neg h0]
      have hmod : cur % 3600 < 3600 := Nat.mod_lt _ (by norm_num)
      have hspill : 1 ≤ min remaining (3600 - cur % 3600) :=
        le_min (by omega) (by omega)
      rw [ih _ (by omega)]
      simp

/-- Exactness within the horizon: when the whole interval fits inside the
`H * 3600`-second horizon, every second is allocated to some bucket. -/
theorem addInterval_sum_exact (cur remaining : Nat) (bins : List Nat)
    (h : cur + remaining ≤ 3600 * bins.length) :
    (addInterval cur remaining bins).sum = bins.sum + remaining := by
  induction remaining using Nat.strong_induction_on generalizing cur bins with
  | _ remaining ih =>
    rw [addInterval]
    by_cases h0 : remaining = 0
    · simp [h0]
    · rw [if_neg h0]
      have hrem : 0 < remaining := Nat.pos_of_ne_zero h0
      have hmod : cur % 3600 < 3600 := Nat.mod_lt _ (by norm_num)
      have hspill_pos : 0 < min remaining (3600 - cur % 3600) :=
        lt_min (by omega) (by omega)
      have hcur : cur < 3600 * bins.length := by omega
      have hidx : cur / 3600 < bins.length := by
        rw [Nat.div_lt_iff_lt_mul (by norm_num : 0 < 3600)]
        omega
      set spill := min remaining (3600 - cur % 3600) with hs
      have hlen : (bumpBin bins (cur / 3600) spill).length = bins.length := by simp
      rw [ih _ (by omega) _ _ (by rw [hlen]; omega)]
      rw [bumpBin_sum bins _ spill hidx]
      omega

/-- Over-allocation never happens: allocated seconds never exceed the
interval's duration (out-of-range spills are silently dropped). -/
theorem addInterval_sum_le (cur remaining : Nat) (bins : List Nat) :
    (addInterval cur remaining bins).sum ≤ bins.sum + remaining := by
  induction remaining using Nat.strong_induction_on generalizing cur bins with
  | _ remaining ih =>
    rw [addInterval]
    by_cases h0 : remaining = 0
    · simp [h0]
    · rw [if_neg h0]
      have hrem : 0 < remaining := Nat.pos_of_ne_zero h0
      have hmod : cur % 3600 < 3600 := Nat.mod_lt _ (by norm_num)
      have hspill_pos : 0 < min remaining (3600 - cur % 3600) :=
        lt_min (by omega) (by omega)
      set spill := min remaining (3600 - cur % 3600) with hs
      calc (addInterval (cur + spill) (remaining - spill)
              (bumpBin bins (cur / 3600) spill)).sum
          ≤ (bumpBin bins (cur / 3600) spill).sum + (remaining - spill) :=
            ih _ (by omega) _ _
        _ ≤ bins.sum + spill + (remaining - spill) := by
            have := bumpBin_sum_le bins (cur / 3600) spill
            omega
        _ ≤ bins.sum + remaining := by omega

/-! ## Per-day hour bins and the group horizon (`Hamster_stats.process_folder`)

`process_folder` computes `hours_count = max(1, math.ceil(max_video_seconds
/ 3600))`, then for each day folds every IN WHEEL row's `(start_sec,
duration_seconds)` into a zero-initialised bin array of that length and
emits one `(hour, active_seconds)` row per bucket. -/

/-- `hours_count = max(1, math.ceil(max_video_seconds / 3600))`. -/
def hoursCount (maxVideoSeconds : Nat) : Nat :=
  max 1 ((maxVideoSeconds + 3599) / 3600)

/-- Fold one day's active `(start_sec, duration_seconds)` pairs into `H`
zero-initialised hour bins. -/
def dayBins (eps : List (Nat × Nat)) (H : Nat) : List Nat :=
  eps.foldl (fun b p => addInterval p.1 p.2 b) (List.replicate H 0)

/-- The `(hour, active_seconds)` rows emitted for one day:
`for hr in range(hours_count): … bins[hr]`. -/
def hourlyRowsForDay (eps : List (Nat × Nat)) (H : Nat) : List (Nat × Nat) :=
  (List.range H).map (fun hr => (hr, (dayBins eps H).getD hr 0))

theorem dayBins_foldl_sum (eps : List (Nat × Nat)) (bins : List Nat)
    (h : ∀ p ∈ eps, p.1 + p.2 ≤ 3600 * bins.length) :
    (eps.foldl (fun b p => addInterval p.1 p.2 b) bins).sum
      = bins.sum + (eps.map Prod.snd).sum := by
  induction eps generalizing bins with
  | nil => simp
  | cons p rest ih =>
    simp only [List.foldl_cons, List.map_cons, List.sum_cons]
    rw [ih]
    · rw [addInterval_sum_exact p.1 p.2 bins (h p (by simp))]
      omega
    · intro q hq
      rw [addInterval_length]
      exact h q (by simp [hq])

theorem dayBins_foldl_length (eps : List (Nat × Nat)) (bins : List Nat) :
    (eps.foldl (fun b p => addInterval p.1 p.2 b) bins).length = bins.length := by
  induction eps generalizing bins with
  | nil => rfl
  | cons p rest ih => simp only [List.foldl_cons]; rw [ih, addInterval_length]

theorem dayBins_length (eps : List (Nat × Nat)) (H : Nat) :
    (dayBins eps H).length = H := by
  unfold dayBins
  rw [dayBins_foldl_length]
  simp

/-- C1, claim theorem: every second of an interval inside the horizon is
attributed to exactly one bucket (the allocated total equals the duration);
allocation never exceeds the duration (overflow past the horizon is
silently dropped, never an error); and, for a day whose active episodes
all lie inside the horizon, the bins of that day sum to the day's
`total_active_seconds` (the sum of its episode durations). -/
theorem C1_hour_bin_exactness :
    (∀ s d bins, s + d ≤ 3600 * (bins : List Nat).length →
      (addInterval s d bins).sum = bins.sum + d)
    ∧ (∀ s d bins, (addInterval s d (bins : List Nat)).sum ≤ bins.sum + d)
    ∧ (∀ eps H, (∀ p ∈ eps, p.1 + p.2 ≤ 3600 * H) →
      (dayBins eps H).sum = ((eps : List (Nat × Nat)).map Prod.snd).sum) := by
  refine ⟨fun s d bins h => addInterval_sum_exact s d bins h,
    fun s d bins => addInterval_sum_le s d bins,
    fun eps H h => ?_⟩
  unfold dayBins
  rw [dayBins_foldl_sum]
  · simp
  · intro p hp
    simpa using h p hp

/-- C1, witness: spec Scenario 3, an episode `(3500, 200)` against a
2-hour horizon, plus a one-episode day, instantiating every hypothesis. -/
theorem C1_hour_bin_exactness_witness :
    (addInterval 3500 200 [0, 0]).sum = [0, 0].sum + 200
    ∧ (addInterval 3500 200 [0]).sum ≤ [0].sum + 200
    ∧ (dayBins [(3500, 200)] 2).sum = ([(3500, 200)].map Prod.snd).sum :=
  ⟨C1_hour_bin_exactness.1 3500 200 [0, 0] (by norm_num),
   C1_hour_bin_exactness.2.1 3500 200 [0],
   C1_hour_bin_exactness.2.2 [(3500, 200)] 2 (by norm_num)⟩

/-- C6, counterexample: the claim says the horizon is
`ceiling(max/3600)`, hence `0` with no entries for a zero-length group
maximum; the code computes `max(1, ceil(…))`, so a zero-length group
still gets one bin and one row per day. -/
theorem C6_horizon_counterexample :
    hoursCount 0 ≠ 0 ∧ (hourlyRowsForDay [] (hoursCount 0)).length = 1 := by
  constructor
  · decide
  · decide

/-- C6, amended claim theorem: `H = max(1, ceiling(max/3600))` — for a
positive group maximum `H` is the exact ceiling (characterised by
`3600*(H-1) < m ≤ 3600*H`), while a zero maximum still yields `H = 1`;
each day then produces exactly `H` rows with hour indices `0..H-1`, over
bins initialised to zero. -/
theorem C6_horizon_amended :
    (∀ m, 1 ≤ m → 3600 * (hoursCount m - 1) < m ∧ m ≤ 3600 * hoursCount m)
    ∧ hoursCount 0 = 1
    ∧ (∀ eps H, (hourlyRowsForDay eps H).length = H
        ∧ (hourlyRowsForDay eps H).map Prod.fst = List.range H)
    ∧ (∀ H, dayBins [] H = List.replicate H 0) := by
  refine ⟨fun m hm => ?_, by decide, fun eps H => ⟨?_, ?_⟩, fun H => rfl⟩
  · unfold hoursCount
    have h1 : 1 ≤ (m + 3599) / 3600 := by omega
    rw [Nat.max_eq_right h1]
    omega
  · simp [hourlyRowsForDay]
  · simp only [hourlyRowsForDay, List.map_map]
    exact List.map_id'' (fun _ => rfl) _

/-- C6, witness: a 3700-second group maximum gives a 2-hour horizon, and
a day with one episode yields exactly 2 rows. -/
theorem C6_horizon_amended_witness :
    (3600 * (hoursCount 3700 - 1) < 3700 ∧ 3700 ≤ 3600 * hoursCount 3700)
    ∧ (hourlyRowsForDay [(10, 20)] 2).length = 2 :=
  ⟨C6_horizon_amended.1 3700 (by norm_num),
   (C6_horizon_amended.2.2.1 [(10, 20)] 2).1⟩

/-! ## Cumulative curve credit (`Hamster_stats.avg_cumulative_curve`)

For one IN WHEEL row the loop body computes `end = min(max_seconds,
start + dur)`, skips when `end <= start`, and adds `step` to every grid
cell of index in `[start // step, end // step)`; the total grid credit
for the interval is therefore `(end // step - start // step) * step`. -/

/-- Total credit the step grid receives from one interval. -/
def intervalCredit (start dur maxSeconds step : Nat) : Nat :=
  if min maxSeconds (start + dur) ≤ start then 0
  else (min maxSeconds (start + dur) / step - start / step) * step

/-- The interval's true duration, clipped to `[0, max_seconds]`. -/
def clippedDur (start dur maxSeconds : Nat) : Nat :=
  min maxSeconds (start + dur) - start

/-- C5, counterexample: the claim says grid credit never under-counts
the clipped duration; yet an interval `[0, 59)` at step 60 spans no full
grid cell and receives 0 credit against a true duration of 59. -/
theorem C5_credit_counterexample :
    intervalCredit 0 59 3600 60 < clippedDur 0 59 3600 := by decide

/-- C5, amended claim theorem: the grid credit approximates the clipped
duration to within one step on either side — both edges are rounded
down to cell boundaries, so the credit can over- or under-count, each by
less than `step` seconds per interval. -/
theorem C5_credit_amended (start dur maxSeconds step : Nat) (hstep : 0 < step) :
    clippedDur start dur maxSeconds < intervalCredit start dur maxSeconds step + step
    ∧ intervalCredit start dur maxSeconds step < clippedDur start dur maxSeconds + step := by
  unfold intervalCredit clippedDur
  set e := min maxSeconds (start + dur) with he
  by_cases hc : e ≤ start
  · rw [if_pos hc]
    omega
  · rw [if_neg hc]
    push_neg at hc
    have hqs : start / step ≤ e / step := Nat.div_le_div_right hc.le
    have h1 := Nat.div_add_mod e step
    have h2 := Nat.div_add_mod start step
    have h3 : e % step < step := Nat.mod_lt _ hstep
    have h4 : start % step < step := Nat.mod_lt _ hstep
    rw [Nat.sub_mul]
    have key : ∀ x y : Nat, x + e % step = e → y + start % step = start → y ≤ x →
        e - start < x - y + step ∧ x - y < e - start + step := by
      intro x y hx hy hxy
      omega
    refine key (e / step * step) (start / step * step) ?_ ?_
      (Nat.mul_le_mul_right _ hqs)
    · rw [Nat.mul_comm]
      exact h1
    · rw [Nat.mul_comm]
      exact h2

/-- C5, witness: an interval `[30, 90)` at step 60 gets 60 seconds of
credit against a true duration of 60 — within a step on both sides. -/
theorem C5_credit_amended_witness :
    clippedDur 30 60 3600 < intervalCredit 30 60 3600 60 + 60
    ∧ intervalCredit 30 60 3600 60 < clippedDur 30 60 3600 + 60 :=
  C5_credit_amended 30 60 3600 60 (by norm_num)

/-! ## Cumulative curve construction and averaging

`avg_cumulative_curve` samples `t = 0, step, …` over `np.arange(0,
max_seconds + step, step)`, credits each session onto the grid, takes
`np.cumsum`, and averages the per-day curves elementwise. -/

/-- Number of grid points of `np.arange(0, max_seconds + step, step)`. -/
def numPoints (maxSeconds step : Nat) : Nat :=
  (maxSeconds + step + step - 1) / step

/-- Credit one `(start_sec, duration_seconds)` session onto the grid:
`active[start // step : end // step] += step` with `end` clipped and the
empty-interval guard `if end <= start: continue`. -/
def addSessionGrid (maxSeconds step : Nat) (arr : List Nat) (sess : Nat × Nat) :
    List Nat :=
  if min maxSeconds (sess.1 + sess.2) ≤ sess.1 then arr
  else arr.mapIdx (fun i v =>
    if sess.1 / step ≤ i ∧ i < min maxSeconds (sess.1 + sess.2) / step
    then v + step else v)

/-- The per-day `active` array after all sessions are credited. -/
def activeGrid (sessions : List (Nat × Nat)) (maxSeconds step : Nat) : List Nat :=
  sessions.foldl (addSessionGrid maxSeconds step)
    (List.replicate (numPoints maxSeconds step) 0)

/-- Running cumulative sums (`np.cumsum`), with accumulator `acc`. -/
def cumsumFrom (acc : Nat) : List Nat → List Nat
  | [] => []
  | x :: xs => (acc + x) :: cumsumFrom (acc + x) xs

/-- One day's cumulative activity curve. -/
def dayCurve (sessions : List (Nat × Nat)) (maxSeconds step : Nat) : List Nat :=
  cumsumFrom 0 (activeGrid sessions maxSeconds step)

/-- Elementwise mean of the per-day curves (`all_curves.mean(axis=0)`). -/
def avgCurve (days : List (List (Nat × Nat))) (maxSeconds step : Nat) : List Rat :=
  (List.range (numPoints maxSeconds step)).map (fun i =>
    ((days.map (fun d => ((dayCurve d maxSeconds step).getD i 0 : Rat))).sum)
      / (days.length : Rat))

theorem cumsumFrom_head_ge (acc : Nat) (l : List Nat) :
    ∀ h ∈ (cumsumFrom acc l).head?, acc ≤ h := by
  cases l with
  | nil => simp [cumsumFrom]
  | cons x xs => simp [cumsumFrom]

theorem cumsumFrom_chain (acc : Nat) (l : List Nat) :
    List.Chain' (· ≤ ·) (cumsumFrom acc l) := by
  induction l generalizing acc with
  | nil => simp [cumsumFrom]
  | cons x xs ih =>
    rw [cumsumFrom, List.chain'_cons']
    exact ⟨cumsumFrom_head_ge (acc + x) xs, ih (acc + x)⟩

theorem cumsumFrom_length (acc : Nat) (l : List Nat) :
    (cumsumFrom acc l).length = l.length := by
  induction l generalizing acc with
  | nil => rfl
  | cons x xs ih => rw [cumsumFrom]; simp [ih]

theorem addSessionGrid_length (maxSeconds step : Nat) (arr : List Nat)
    (sess : Nat × Nat) :
    (addSessionGrid maxSeconds step arr sess).length = arr.length := by
  unfold addSessionGrid
  split <;> simp

theorem activeGrid_foldl_length (maxSeconds step : Nat)
    (sessions : List (Nat × Nat)) (arr : List Nat) :
    (sessions.foldl (addSessionGrid maxSeconds step) arr).length = arr.length := by
  induction sessions generalizing arr with
  | nil => rfl
  | cons sess rest ih =>
    simp only [List.foldl_cons]
    rw [ih, addSessionGrid_length]

theorem activeGrid_length (sessions : List (Nat × Nat)) (maxSeconds step : Nat) :
    (activeGrid sessions maxSeconds step).length = numPoints maxSeconds step := by
  unfold activeGrid
  rw [activeGrid_foldl_length]
  simp

theorem sum_map_le_sum_map {α : Type} (l : List α) (f g : α → Rat)
    (h : ∀ a ∈ l, f a ≤ g a) : (l.map f).sum ≤ (l.map g).sum := by
  induction l with
  | nil => simp
  | cons a l ih =>
    simp only [List.map_cons, List.sum_cons]
    have h1 := h a (by simp)
    have h2 := ih (fun b hb => h b (by simp [hb]))
    exact add_le_add h1 h2

theorem dayCurve_length (sessions : List (Nat × Nat)) (maxSeconds step : Nat) :
    (dayCurve sessions maxSeconds step).length = numPoints maxSeconds step := by
  unfold dayCurve
  rw [cumsumFrom_length, activeGrid_length]

theorem dayCurve_getD_mono (sessions : List (Nat × Nat)) (maxSeconds step i : Nat)
    (h : i + 1 < numPoints maxSeconds step) :
    (dayCurve sessions maxSeconds step).getD i 0
      ≤ (dayCurve sessions maxSeconds step).getD (i + 1) 0 := by
  have hlen := dayCurve_length sessions maxSeconds step
  have hchain : List.Chain' (· ≤ ·) (dayCurve sessions maxSeconds step) :=
    cumsumFrom_chain 0 (activeGrid sessions maxSeconds step)
  rw [List.chain'_iff_get] at hchain
  have h1 : i < (dayCurve sessions maxSeconds step).length := by omega
  have h2 : i + 1 < (dayCurve sessions maxSeconds step).length := by omega
  rw [List.getD_eq_getElem _ _ h1, List.getD_eq_getElem _ _ h2]
  exact hchain i (by omega)

/-- C7, claim theorem: every per-day cumulative curve is monotonically
non-decreasing (a cumulative sum of non-negative per-cell credits), and
so is the group's elementwise average `avg_cum_sec` series. -/
theorem C7_cumulative_monotone :
    (∀ sessions maxSeconds step,
      List.Chain' (· ≤ ·) (dayCurve sessions maxSeconds step))
    ∧ (∀ days maxSeconds step,
      List.Chain' (· ≤ ·) (avgCurve days maxSeconds step)) := by
  constructor
  · intro sessions maxSeconds step
    exact cumsumFrom_chain 0 (activeGrid sessions maxSeconds step)
  · intro days maxSeconds step
    unfold avgCurve
    rw [List.chain'_map]
    cases hN : numPoints maxSeconds step with
    | zero => simp
    | succ n =>
      rw [List.chain'_range_succ]
      intro m hm
      by_cases hd : days = []
      · simp [hd]
      · have hpos : (0 : Rat) < (days.length : Rat) := by
          have : 0 < days.length := List.length_pos.mpr hd
          exact_mod_cast this
        rw [div_le_div_iff_of_pos_right hpos]
        apply sum_map_le_sum_map
        intro d _
        have := dayCurve_getD_mono d maxSeconds step m (by omega)
        exact_mod_cast this

/-! ## Episode segmenter (`hamster_wheel_analyzer.main`, lines 159–179)

The grouping loop keeps `cur_state` and `start_t`, emits `(start_t, t,
cur_state)` at every state change, and finally appends `(start_t,
timeline[-1][0], cur_state)`.  The streak filter then maps every episode
with `st == 1 and (e - s) < min_len` to state 0.  Times are generic so
the same code serves float (`Rat`) timelines and the integer timelines
of the reconstruction property. -/

/-- The grouping loop after the first sample has seeded `start_t = startT`,
`cur_state = curState`; `lastT` is the most recently seen timestamp
(`timeline[-1][0]` once the input is exhausted). -/
def segmentAux {α : Type} (startT : α) (curState : Bool) (lastT : α) :
    List (α × Bool) → List (α × α × Bool)
  | [] => [(startT, lastT, curState)]
  | (t, st) :: rest =>
    if st ≠ curState then (startT, t, curState) :: segmentAux t st t rest
    else segmentAux startT curState t rest

/-- Run-length episode segmentation of a classified timeline. -/
def segment {α : Type} : List (α × Bool) → List (α × α × Bool)
  | [] => []
  | (t, st) :: rest => segmentAux t st t rest

/-- The minimum-streak filter on `Rat`-valued episode times:
`if st == 1 and (e - s) < min_len: cleaned.append((s, e, 0))`. -/
def cleanEpisodes (minLen : Rat) (eps : List (Rat × Rat × Bool)) :
    List (Rat × Rat × Bool) :=
  eps.map (fun ep =>
    if ep.2.2 = true ∧ ep.2.1 - ep.1 < minLen then (ep.1, ep.2.1, false) else ep)

/-- The same filter on integer-valued episode times (threshold kept
rational, as `min_streak_sec` is a float). -/
def cleanEpisodesN (minLen : Rat) (eps : List (Nat × Nat × Bool)) :
    List (Nat × Nat × Bool) :=
  eps.map (fun ep =>
    if ep.2.2 = true ∧ (ep.2.1 : Rat) - (ep.1 : Rat) < minLen
    then (ep.1, ep.2.1, false) else ep)

theorem segmentAux_ne_nil {α : Type} (startT : α) (curState : Bool) (lastT : α)
    (rem : List (α × Bool)) : segmentAux startT curState lastT rem ≠ [] := by
  induction rem generalizing startT curState lastT with
  | nil => simp [segmentAux]
  | cons p rest ih =>
    obtain ⟨t, st⟩ := p
    rw [segmentAux]
    split
    · simp
    · exact ih _ _ _

theorem segmentAux_head {α : Type} (startT : α) (curState : Bool) (lastT : α)
    (rem : List (α × Bool)) :
    ∀ ep ∈ (segmentAux startT curState lastT rem).head?, ep.1 = startT := by
  induction rem generalizing startT curState lastT with
  | nil => simp [segmentAux]
  | cons p rest ih =>
    obtain ⟨t, st⟩ := p
    rw [segmentAux]
    split
    · simp
    · exact ih _ _ _

theorem segmentAux_last_end {α : Type} (startT : α) (curState : Bool) (lastT : α)
    (rem : List (α × Bool)) (d : α × α × Bool) :
    ((segmentAux startT curState lastT rem).getLastD d).2.1
      = (rem.map Prod.fst).getLastD lastT := by
  induction rem generalizing startT curState lastT d with
  | nil => simp [segmentAux]
  | cons p rest ih =>
    obtain ⟨t, st⟩ := p
    rw [segmentAux]
    simp only [List.map_cons, List.getLastD_cons]
    split
    · rw [List.getLastD_cons]
      exact ih _ _ _ _
    · exact ih _ _ _ _

/-- Master invariant of the grouping loop: consecutive episodes are
contiguous and every episode with a successor is strictly positive;
every episode satisfies `start ≤ end`.  Requires `startT ≤ lastT` and
strictly increasing remaining timestamps. -/
theorem segmentAux_master {α : Type} [LinearOrder α] (startT lastT : α)
    (curState : Bool) (rem : List (α × Bool))
    (h1 : startT ≤ lastT)
    (h2 : List.Chain' (· < ·) (lastT :: rem.map Prod.fst)) :
    List.Chain' (fun a b => a.2.1 = b.1 ∧ a.1 < a.2.1)
      (segmentAux startT curState lastT rem)
    ∧ ∀ ep ∈ segmentAux startT curState lastT rem, ep.1 ≤ ep.2.1 := by
  induction rem generalizing startT curState lastT with
  | nil =>
    refine ⟨by simp [segmentAux], ?_⟩
    intro ep hep
    simp only [segmentAux, List.mem_singleton] at hep
    subst hep
    exact h1
  | cons p rest ih =>
    obtain ⟨t, st⟩ := p
    simp only [List.map_cons, List.chain'_cons] at h2
    obtain ⟨hlt, h2'⟩ := h2
    rw [segmentAux]
    split
    · have hrec := ih t t st le_rfl h2'
      constructor
      · rw [List.chain'_cons']
        refine ⟨?_, hrec.1⟩
        intro ep hep
        refine ⟨(segmentAux_head t st t rest ep hep).symm, ?_⟩
        exact lt_of_le_of_lt h1 hlt
      · intro ep hep
        rcases List.mem_cons.mp hep with h | h
        · subst h
          exact le_of_lt (lt_of_le_of_lt h1 hlt)
        · exact hrec.2 ep h
    · exact ih startT t curState (le_of_lt (lt_of_le_of_lt h1 hlt)) h2'

/-- The streak filter's per-episode map keeps both boundaries. -/
theorem cleanEpisodes_keeps_bounds (minLen : Rat) (ep : Rat × Rat × Bool) :
    ((if ep.2.2 = true ∧ ep.2.1 - ep.1 < minLen
      then (ep.1, ep.2.1, false) else ep) : Rat × Rat × Bool).1 = ep.1
    ∧ ((if ep.2.2 = true ∧ ep.2.1 - ep.1 < minLen
      then (ep.1, ep.2.1, false) else ep) : Rat × Rat × Bool).2.1 = ep.2.1 := by
  split <;> simp

/-- C3, claim theorem: the filter reclassifies to INACTIVE exactly the
ACTIVE episodes of duration strictly below `min_streak_sec`, touches no
INACTIVE episode, keeps episode count, order and boundaries; a
single-sample day yields one zero-duration episode, and a lone ACTIVE
sample is reclassified whenever `min_streak_sec > 0`. -/
theorem C3_min_streak_filter :
    (∀ (minLen : Rat) (eps : List (Rat × Rat × Bool)),
      (cleanEpisodes minLen eps).length = eps.length
      ∧ ∀ i, i < eps.length →
        ((cleanEpisodes minLen eps).getD i (0, 0, false)).1
            = (eps.getD i (0, 0, false)).1
        ∧ ((cleanEpisodes minLen eps).getD i (0, 0, false)).2.1
            = (eps.getD i (0, 0, false)).2.1
        ∧ (((cleanEpisodes minLen eps).getD i (0, 0, false)).2.2 = true ↔
            ((eps.getD i (0, 0, false)).2.2 = true
              ∧ ¬((eps.getD i (0, 0, false)).2.1
                    - (eps.getD i (0, 0, false)).1 < minLen))))
    ∧ (∀ (t : Rat) (st : Bool), segment [(t, st)] = [(t, t, st)])
    ∧ (∀ (t minLen : Rat), 0 < minLen →
        cleanEpisodes minLen (segment [(t, true)]) = [(t, t, false)]) := by
  refine ⟨fun minLen eps => ⟨by simp [cleanEpisodes], fun i hi => ?_⟩,
    fun t st => rfl, fun t minLen hmin => ?_⟩
  · have hi' : i < (cleanEpisodes minLen eps).length := by
      simpa [cleanEpisodes] using hi
    rw [List.getD_eq_getElem _ _ hi', List.getD_eq_getElem _ _ hi]
    unfold cleanEpisodes
    rw [List.getElem_map]
    set ep := eps[i]
    split_ifs with h
    · refine ⟨rfl, rfl, ?_⟩
      simp only [Bool.false_eq_true, false_iff, not_and, not_not]
      intro _
      exact h.2
    · refine ⟨rfl, rfl, ?_⟩
      constructor
      · intro hact
        exact ⟨hact, fun hlt => h ⟨hact, hlt⟩⟩
      · intro hc
        exact hc.1
  · show cleanEpisodes minLen [(t, t, true)] = [(t, t, false)]
    unfold cleanEpisodes
    rw [List.map_cons, List.map_nil, if_pos ⟨rfl, by simpa using hmin⟩]

/-- C3, witness: an ACTIVE episode `(1, 3)` survives a 2-second
threshold, and a lone ACTIVE sample at `t = 5` is reclassified. -/
theorem C3_min_streak_filter_witness :
    (((cleanEpisodes 2 [(1, 3, true)]).getD 0 (0, 0, false)).1
        = ([((1 : Rat), (3 : Rat), true)].getD 0 (0, 0, false)).1
      ∧ ((cleanEpisodes 2 [(1, 3, true)]).getD 0 (0, 0, false)).2.1
        = ([((1 : Rat), (3 : Rat), true)].getD 0 (0, 0, false)).2.1
      ∧ (((cleanEpisodes 2 [(1, 3, true)]).getD 0 (0, 0, false)).2.2 = true ↔
          (([((1 : Rat), (3 : Rat), true)].getD 0 (0, 0, false)).2.2 = true
            ∧ ¬(([((1 : Rat), (3 : Rat), true)].getD 0 (0, 0, false)).2.1
                  - ([((1 : Rat), (3 : Rat), true)].getD 0 (0, 0, false)).1 < 2))))
    ∧ cleanEpisodes 1 (segment [((5 : Rat), true)]) = [(5, 5, false)] :=
  ⟨((C3_min_streak_filter.1 2 [(1, 3, true)]).2 0 (by norm_num)),
   C3_min_streak_filter.2.2 5 1 (by norm_num)⟩

/-- C4, claim theorem: for a non-empty, strictly increasing timeline the
episodes — both before and after the streak filter — are contiguous
(`end = next start`), start at the first sample time, end at the last
sample time, and each satisfies `start ≤ end`. -/
theorem C4_segment_partition (t0 : Rat) (s0 : Bool) (rest : List (Rat × Bool))
    (minLen : Rat)
    (hsorted : List.Chain' (· < ·) (((t0, s0) :: rest).map Prod.fst)) :
    ∀ eps ∈ [segment ((t0, s0) :: rest),
             cleanEpisodes minLen (segment ((t0, s0) :: rest))],
      List.Chain' (fun a b : Rat × Rat × Bool => a.2.1 = b.1) eps
      ∧ eps.head?.map (fun ep => ep.1) = some t0
      ∧ eps.getLast?.map (fun ep => ep.2.1)
          = some ((((t0, s0) :: rest).map Prod.fst).getLastD 0)
      ∧ ∀ ep ∈ eps, ep.1 ≤ ep.2.1 := by
  simp only [List.map_cons] at hsorted
  have hmaster := segmentAux_master t0 t0 s0 rest le_rfl hsorted
  have hne := segmentAux_ne_nil t0 s0 t0 rest
  have hseg : segment ((t0, s0) :: rest) = segmentAux t0 s0 t0 rest := rfl
  have hlastT : (((t0, s0) :: rest).map Prod.fst).getLastD 0
      = (rest.map Prod.fst).getLastD t0 := by
    rw [List.map_cons, List.getLastD_cons]
  -- facts about the raw segmentation
  have hchain : List.Chain' (fun a b : Rat × Rat × Bool => a.2.1 = b.1)
      (segmentAux t0 s0 t0 rest) :=
    List.Chain'.imp (fun a b hab => hab.1) hmaster.1
  have hhead : (segmentAux t0 s0 t0 rest).head?.map (fun ep => ep.1)
      = some t0 := by
    cases hE : (segmentAux t0 s0 t0 rest).head? with
    | none => exact absurd (List.head?_eq_none_iff.mp hE) hne
    | some a =>
      have := segmentAux_head t0 s0 t0 rest a (by rw [hE]; rfl)
      simp [this]
  have hlast : (segmentAux t0 s0 t0 rest).getLast?.map (fun ep => ep.2.1)
      = some ((rest.map Prod.fst).getLastD t0) := by
    cases hE : (segmentAux t0 s0 t0 rest).getLast? with
    | none => exact absurd (List.getLast?_eq_none_iff.mp hE) hne
    | some a =>
      have h := segmentAux_last_end t0 s0 t0 rest (0, 0, false)
      rw [List.getLastD_eq_getLast?, hE] at h
      simp only [Option.getD_some] at h
      simp [h]
  intro eps heps
  rcases List.mem_pair.mp heps with h | h <;> subst h
  · exact ⟨hseg ▸ hchain, by rw [hseg, hhead], by rw [hseg, hlast, hlastT],
      hseg ▸ hmaster.2⟩
  · rw [hseg]
    set f : Rat × Rat × Bool → Rat × Rat × Bool := fun ep =>
      if ep.2.2 = true ∧ ep.2.1 - ep.1 < minLen then (ep.1, ep.2.1, false) else ep
      with hf
    have hf1 : ∀ ep, (f ep).1 = ep.1 := fun ep =>
      (cleanEpisodes_keeps_bounds minLen ep).1
    have hf2 : ∀ ep, (f ep).2.1 = ep.2.1 := fun ep =>
      (cleanEpisodes_keeps_bounds minLen ep).2
    have hcl : cleanEpisodes minLen (segmentAux t0 s0 t0 rest)
        = (segmentAux t0 s0 t0 rest).map f := rfl
    rw [hcl]
    refine ⟨?_, ?_, ?_, ?_⟩
    · rw [List.chain'_map]
      exact List.Chain'.imp (fun a b hab => by rw [hf2, hf1]; exact hab) hchain
    · rw [List.head?_map, Option.map_map]
      rw [show ((fun ep : Rat × Rat × Bool => ep.1) ∘ f)
          = (fun ep : Rat × Rat × Bool => ep.1) from funext hf1]
      exact hhead
    · rw [List.getLast?_map, Option.map_map]
      rw [show ((fun ep : Rat × Rat × Bool => ep.2.1) ∘ f)
          = (fun ep : Rat × Rat × Bool => ep.2.1) from funext hf2]
      rw [hlast, hlastT]
    · intro ep hep
      obtain ⟨ep0, hep0, rfl⟩ := List.mem_map.mp hep
      rw [hf1, hf2]
      exact hmaster.2 ep0 hep0

/-- C4, witness: spec Scenario 1's timeline `[(0,F),(1,T),(2,T),(3,F)]`
satisfies the partition invariant. -/
theorem C4_segment_partition_witness :
    List.Chain' (fun a b : Rat × Rat × Bool => a.2.1 = b.1)
      (segment [((0 : Rat), false), (1, true), (2, true), (3, false)])
    ∧ (segment [((0 : Rat), false), (1, true), (2, true),
        (3, false)]).head?.map (fun ep => ep.1) = some 0
    ∧ (segment [((0 : Rat), false), (1, true), (2, true),
        (3, false)]).getLast?.map (fun ep => ep.2.1)
        = some (([((0 : Rat), false), (1, true), (2, true),
            (3, false)].map Prod.fst).getLastD 0)
    ∧ ∀ ep ∈ segment [((0 : Rat), false), (1, true), (2, true), (3, false)],
        ep.1 ≤ ep.2.1 :=
  C4_segment_partition 0 false [(1, true), (2, true), (3, false)] 2
    (by norm_num)
    (segment [((0 : Rat), false), (1, true), (2, true), (3, false)])
    (by simp)


/-! ## Sample reconstruction and re-segmentation (claim C8)

The reconstruction is the property's own harness, taken from the spec's
words: "expand episodes back to per-second samples".  Each episode
`(s, e, st)` contributes one sample per second of `[s, e)` carrying its
state, and the last episode additionally contributes the final boundary
sample at its `end_sec`. -/

/-- Per-second samples `[s, e)` of one episode. -/
def episodeSamples (ep : Nat × Nat × Bool) : List (Nat × Bool) :=
  (List.range' ep.1 (ep.2.1 - ep.1)).map (fun t => (t, ep.2.2))

def expandBody (eps : List (Nat × Nat × Bool)) : List (Nat × Bool) :=
  eps.flatMap episodeSamples

/-- Reconstruction of the per-second sample stream from an episode list
(modelled from the spec: "expand episodes back to per-second samples"). -/
def expand (eps : List (Nat × Nat × Bool)) : List (Nat × Bool) :=
  expandBody eps ++ (match eps.getLast? with
    | none => []
    | some ep => [(ep.2.1, ep.2.2)])

/-- Skipping a constant-state run of samples only advances `lastT`. -/
theorem segmentAux_run (ts : List Nat) (st : Bool) (startT lastT : Nat)
    (rem : List (Nat × Bool)) :
    segmentAux startT st lastT (ts.map (fun t => (t, st)) ++ rem)
      = segmentAux startT st (ts.getLastD lastT) rem := by
  induction ts generalizing lastT with
  | nil => rfl
  | cons t ts ih =>
    simp only [List.map_cons, List.cons_append, List.getLastD_cons]
    rw [segmentAux, if_neg (by simp)]
    exact ih t

theorem expand_head_decomp (s e : Nat) (st : Bool)
    (rest : List (Nat × Nat × Bool))
    (h1 : rest = [] → s ≤ e) (h2 : rest ≠ [] → s < e) :
    ∃ tail, expand ((s, e, st) :: rest) = (s, st) :: tail := by
  cases rest with
  | nil =>
    have hse := h1 rfl
    by_cases he : s = e
    · subst he
      exact ⟨[], by simp [expand, expandBody, episodeSamples]⟩
    · have hlt : s < e := lt_of_le_of_ne hse he
      refine ⟨(List.range' (s + 1) (e - s - 1)).map (fun t => (t, st))
        ++ [(e, st)], ?_⟩
      simp only [expand, expandBody, List.flatMap_cons, List.flatMap_nil,
        episodeSamples, List.getLast?_singleton]
      rw [show e - s = (e - s - 1) + 1 by omega, List.range'_succ]
      simp
  | cons b bs =>
    have hlt := h2 (by simp)
    refine ⟨(List.range' (s + 1) (e - s - 1)).map (fun t => (t, st))
      ++ expand (b :: bs), ?_⟩
    have hgl : ((s, e, st) :: b :: bs).getLast? = (b :: bs).getLast? :=
      List.getLast?_cons_cons
    simp only [expand, expandBody, List.flatMap_cons, episodeSamples, hgl]
    rw [show e - s = (e - s - 1) + 1 by omega, List.range'_succ]
    simp [List.append_assoc]

/-- Re-segmenting the reconstructed sample stream recovers the episode
list, provided episodes are contiguous, positive-length except possibly
the last, and adjacent episodes have distinct states. -/
theorem segment_expand (eps : List (Nat × Nat × Bool))
    (hchain : List.Chain' (fun a b => a.2.1 = b.1 ∧ a.1 < a.2.1 ∧ a.2.2 ≠ b.2.2) eps)
    (hlast : ∀ ep, eps.getLast? = some ep → ep.1 ≤ ep.2.1) :
    segment (expand eps) = eps := by
  induction eps with
  | nil => rfl
  | cons ep rest ih =>
    obtain ⟨s, e, st⟩ := ep
    cases rest with
    | nil =>
      have hse : s ≤ e := hlast (s, e, st) (by simp)
      by_cases he : s = e
      · subst he
        simp [expand, expandBody, episodeSamples, segment, segmentAux]
      · have hlt : s < e := lt_of_le_of_ne hse he
        have hexp : expand [(s, e, st)]
            = (s, st) :: ((List.range' (s + 1) (e - s - 1)).map
                (fun t => (t, st)) ++ [(e, st)]) := by
          simp only [expand, expandBody, List.flatMap_cons, List.flatMap_nil,
            episodeSamples, List.getLast?_singleton]
          rw [show e - s = (e - s - 1) + 1 by omega, List.range'_succ]
          simp
        rw [hexp]
        show segmentAux s st s _ = _
        rw [segmentAux_run, segmentAux, if_neg (by simp), segmentAux]
    | cons ep' rest' =>
      rw [List.chain'_cons] at hchain
      obtain ⟨⟨hcontig, hpos, hst⟩, hchain'⟩ := hchain
      have hlast' : ∀ q, (ep' :: rest').getLast? = some q → q.1 ≤ q.2.1 := by
        intro q hq
        exact hlast q (by rw [List.getLast?_cons_cons]; exact hq)
      have ihs := ih hchain' hlast'
      obtain ⟨s', e', st'⟩ := ep'
      simp only at hcontig hpos hst
      -- peel the head episode's run off the reconstruction
      have hsplit : expand ((s, e, st) :: (s', e', st') :: rest')
          = episodeSamples (s, e, st) ++ expand ((s', e', st') :: rest') := by
        simp only [expand, expandBody, List.flatMap_cons, List.getLast?_cons_cons,
          List.append_assoc]
      have hs'e' : (rest' = [] → s' ≤ e') ∧ (rest' ≠ [] → s' < e') := by
        constructor
        · intro hr
          subst hr
          exact hlast' (s', e', st') (by simp)
        · intro hr
          cases rest' with
          | nil => exact absurd rfl hr
          | cons b bs =>
            rw [List.chain'_cons] at hchain'
            exact hchain'.1.2.1
      obtain ⟨tail, htail⟩ :=
        expand_head_decomp s' e' st' rest' hs'e'.1 hs'e'.2
      have hrun : episodeSamples (s, e, st)
          = (s, st) :: (List.range' (s + 1) (e - s - 1)).map (fun t => (t, st)) := by
        unfold episodeSamples
        rw [show e - s = (e - s - 1) + 1 by omega, List.range'_succ]
        simp
      rw [hsplit, htail, hrun]
      show segmentAux s st s _ = _
      simp only [List.append_eq]
      rw [segmentAux_run, segmentAux, if_pos (Ne.symm hst)]
      have h2 : segmentAux s' st' s' tail = (s', e', st') :: rest' := by
        have hdef : segment ((s', st') :: tail) = segmentAux s' st' s' tail := rfl
        rw [← hdef, ← htail, ihs]
      rw [h2, hcontig]

theorem chain'_and {α : Type} {p q : α → α → Prop} :
    ∀ (l : List α), List.Chain' p l → List.Chain' q l →
      List.Chain' (fun a b => p a b ∧ q a b) l := by
  intro l
  induction l with
  | nil => intro _ _; simp
  | cons a t ih =>
    intro hp hq
    cases t with
    | nil => simp
    | cons b t' =>
      rw [List.chain'_cons] at hp hq ⊢
      exact ⟨⟨hp.1, hq.1⟩, ih hp.2 hq.2⟩

/-- The integer-time streak filter keeps both boundaries. -/
theorem cleanEpisodesN_keeps_bounds (minLen : Rat) (ep : Nat × Nat × Bool) :
    ((if ep.2.2 = true ∧ (ep.2.1 : Rat) - (ep.1 : Rat) < minLen
      then (ep.1, ep.2.1, false) else ep) : Nat × Nat × Bool).1 = ep.1
    ∧ ((if ep.2.2 = true ∧ (ep.2.1 : Rat) - (ep.1 : Rat) < minLen
      then (ep.1, ep.2.1, false) else ep) : Nat × Nat × Bool).2.1 = ep.2.1 := by
  split <;> simp

/-- The streak filter is idempotent: a reclassified episode is INACTIVE
and INACTIVE episodes are never filtered again. -/
theorem cleanEpisodesN_idem (minLen : Rat) (eps : List (Nat × Nat × Bool)) :
    cleanEpisodesN minLen (cleanEpisodesN minLen eps)
      = cleanEpisodesN minLen eps := by
  unfold cleanEpisodesN
  rw [List.map_map]
  apply List.map_congr_left
  intro ep _
  simp only [Function.comp_apply]
  by_cases h : ep.2.2 = true ∧ (ep.2.1 : Rat) - (ep.1 : Rat) < minLen
  · rw [if_pos h, if_neg (by simp)]
  · rw [if_neg h, if_neg h]

/-- C8, counterexample: on samples `[(0,T),(1,F),(2,T),(3,T)]` with
`min_streak_sec = 2` the filter leaves three adjacent INACTIVE episodes;
re-segmenting the per-second reconstruction merges them into one, so the
boundaries differ from the original filtered output. -/
theorem C8_idempotence_counterexample :
    cleanEpisodesN 2 (segment (expand (cleanEpisodesN 2
        (segment [((0 : Nat), true), (1, false), (2, true), (3, true)]))))
      ≠ cleanEpisodesN 2
          (segment [((0 : Nat), true), (1, false), (2, true), (3, true)]) := by
  norm_num [cleanEpisodesN, segment, segmentAux, expand, expandBody,
    episodeSamples, List.range']

/-- C8, amended claim theorem: for a non-empty strictly increasing
integer timeline, re-running the segmenter and filter on the per-second
reconstruction of the filtered output reproduces that output exactly
whenever no two adjacent filtered episodes share a state (without that
proviso the rerun merges equal-state neighbours, as the counterexample
shows). -/
theorem C8_idempotence_amended (t0 : Nat) (s0 : Bool) (rest : List (Nat × Bool))
    (minLen : Rat)
    (hsorted : List.Chain' (· < ·) (((t0, s0) :: rest).map Prod.fst))
    (hsep : List.Chain' (fun a b : Nat × Nat × Bool => a.2.2 ≠ b.2.2)
      (cleanEpisodesN minLen (segment ((t0, s0) :: rest)))) :
    cleanEpisodesN minLen (segment (expand
        (cleanEpisodesN minLen (segment ((t0, s0) :: rest)))))
      = cleanEpisodesN minLen (segment ((t0, s0) :: rest)) := by
  simp only [List.map_cons] at hsorted
  have hmaster := segmentAux_master t0 t0 s0 rest le_rfl hsorted
  set f : Nat × Nat × Bool → Nat × Nat × Bool := fun ep =>
    if ep.2.2 = true ∧ (ep.2.1 : Rat) - (ep.1 : Rat) < minLen
    then (ep.1, ep.2.1, false) else ep with hf
  have hf1 : ∀ ep, (f ep).1 = ep.1 := fun ep =>
    (cleanEpisodesN_keeps_bounds minLen ep).1
  have hf2 : ∀ ep, (f ep).2.1 = ep.2.1 := fun ep =>
    (cleanEpisodesN_keeps_bounds minLen ep).2
  have hcl : cleanEpisodesN minLen (segment ((t0, s0) :: rest))
      = (segmentAux t0 s0 t0 rest).map f := rfl
  have hA : List.Chain' (fun a b : Nat × Nat × Bool => a.2.1 = b.1 ∧ a.1 < a.2.1)
      (cleanEpisodesN minLen (segment ((t0, s0) :: rest))) := by
    rw [hcl, List.chain'_map]
    refine List.Chain'.imp ?_ hmaster.1
    intro a b hab
    rw [hf2 a, hf1 b, hf1 a]
    exact hab
  have hfull : List.Chain'
      (fun a b : Nat × Nat × Bool => a.2.1 = b.1 ∧ a.1 < a.2.1 ∧ a.2.2 ≠ b.2.2)
      (cleanEpisodesN minLen (segment ((t0, s0) :: rest))) := by
    refine List.Chain'.imp ?_ (chain'_and _ hA hsep)
    intro a b hab
    exact ⟨hab.1.1, hab.1.2, hab.2⟩
  have hlastOK : ∀ ep, (cleanEpisodesN minLen
      (segment ((t0, s0) :: rest))).getLast? = some ep → ep.1 ≤ ep.2.1 := by
    intro ep hep
    have hmem : ep ∈ cleanEpisodesN minLen (segment ((t0, s0) :: rest)) :=
      List.mem_of_mem_getLast? hep
    rw [hcl] at hmem
    obtain ⟨ep0, hmem0, rfl⟩ := List.mem_map.mp hmem
    rw [hf1, hf2]
    exact hmaster.2 ep0 hmem0
  have hse := segment_expand _ hfull hlastOK
  rw [hse]
  exact cleanEpisodesN_idem minLen _

/-- C8, witness: the two-sample timeline `[(0,T),(1,F)]` at threshold 1
keeps its ACTIVE episode; the rerun on the reconstruction reproduces the
filtered output. -/
theorem C8_idempotence_amended_witness :
    cleanEpisodesN 1 (segment (expand
        (cleanEpisodesN 1 (segment [((0 : Nat), true), (1, false)]))))
      = cleanEpisodesN 1 (segment [((0 : Nat), true), (1, false)]) :=
  C8_idempotence_amended 0 true [(1, false)] 1 (by norm_num)
    (by norm_num [cleanEpisodesN, segment, segmentAux])

/-! ## String utilities shared by the statistics module

Python string primitives modelled on `List Char`: `str.lower`,
`str.strip`, `str.replace` (left-to-right, non-overlapping), and the
decimal machinery used by `parse_duration` / `parse_hms_to_seconds`. -/

/-- `str.lower()` (ASCII, as all inputs here are ASCII). -/
def pyLower (l : List Char) : List Char := l.map Char.toLower

/-- `str.strip()`: drop leading and trailing whitespace. -/
def pyStrip (l : List Char) : List Char :=
  ((l.dropWhile Char.isWhitespace).reverse.dropWhile Char.isWhitespace).reverse

/-- Fuelled core of `str.replace`: scan left to right, replacing each
non-overlapping occurrence of `pat`.  The fuel starts at the list length
and bounds the number of consumed characters. -/
def replaceGo (pat rep : List Char) : Nat → List Char → List Char
  | _, [] => []
  | 0, l => l
  | fuel + 1, c :: cs =>
    if pat.isPrefixOf (c :: cs) ∧ pat ≠ [] then
      rep ++ replaceGo pat rep fuel (cs.drop (pat.length - 1))
    else c :: replaceGo pat rep fuel cs

/-- `s.replace(pat, rep)` for a non-empty pattern. -/
def replaceL (pat rep l : List Char) : List Char :=
  replaceGo pat rep l.length l

/-- Decimal value of a digit string (`int` on a digit-only literal). -/
def digitsToNat (l : List Char) : Nat :=
  l.foldl (fun a c => 10 * a + (c.toNat - 48)) 0

/-- The duration regex `^(?:(\d+)m)?(?:(\d+)s?)?$` as a deterministic
matcher: leading digits followed by `m` form the minutes group, then
optional digits with an optional trailing `s` form the seconds group;
anything left over is a non-match. -/
def matchMS (s : List Char) : Option (Nat × Nat) :=
  let p1 := s.span Char.isDigit
  if p1.1 ≠ [] ∧ p1.2.head? = some 'm' then
    let r2 := p1.2.tail
    let p2 := r2.span Char.isDigit
    if p2.1 = [] then
      if r2 = [] then some (digitsToNat p1.1, 0) else none
    else
      let r4 := if p2.2.head? = some 's' then p2.2.tail else p2.2
      if r4 = [] then some (digitsToNat p1.1, digitsToNat p2.1) else none
  else
    if p1.1 = [] then (if s = [] then some (0, 0) else none)
    else
      let r4 := if p1.2.head? = some 's' then p1.2.tail else p1.2
      if r4 = [] then some (0, digitsToNat p1.1) else none

/-- `Hamster_stats.parse_duration`.  `none` models a `NaN` cell.  The
lower/strip/unit-replacement/space-removal pipeline, the `"", "0", "s"`
special cases, the regex match, and the strip-non-digits fallback
(`int` of no digits raises, caught to 0) follow the source line by line. -/
def parse_duration (val : Option String) : Nat :=
  match val with
  | none => 0
  | some v =>
    let s0 := pyLower (pyStrip v.data)
    let s1 := replaceL ['s', 'e', 'c'] ['s'] s0
    let s2 := replaceL ['s', 'e', 'c', 'o', 'n', 'd', 's'] ['s'] s1
    let s3 := replaceL ['s', 'e', 'c', 'o', 'n', 'd'] ['s'] s2
    let s4 := replaceL ['m', 'i', 'n', 's'] ['m'] s3
    let s5 := replaceL ['m', 'i', 'n'] ['m'] s4
    let s := s5.filter (fun c => c ≠ ' ')
    if s = [] ∨ s = ['0'] ∨ s = ['s'] then 0
    else match matchMS s with
      | some ms => ms.1 * 60 + ms.2
      | none => digitsToNat (s.filter Char.isDigit)

theorem isDigit_toNat {c : Char} (h : c.isDigit = true) :
    48 ≤ c.toNat ∧ c.toNat ≤ 57 := by
  simp [Char.isDigit] at h
  exact h

theorem char_ne_of_isDigit {c d : Char} (h : c.isDigit = true)
    (hd : d.isDigit = false) : c ≠ d := by
  intro he
  subst he
  rw [h] at hd
  cases hd

theorem isDigit_not_ws {c : Char} (h : c.isDigit = true) :
    c.isWhitespace = false := by
  simp only [Char.isWhitespace, Bool.or_eq_false_iff, decide_eq_false_iff_not]
  refine ⟨⟨⟨?_, ?_⟩, ?_⟩, ?_⟩ <;>
    exact char_ne_of_isDigit h (by decide)

theorem toLower_eq_self {c : Char} (h : ¬(65 ≤ c.toNat ∧ c.toNat ≤ 90)) :
    c.toLower = c := by
  simp only [Char.toLower]
  rw [if_neg]
  intro hc
  exact h ⟨hc.1, hc.2⟩

theorem toNat_ofNat_small {n : Nat} (h : n < 55296) : (Char.ofNat n).toNat = n := by
  unfold Char.ofNat
  rw [dif_pos (Or.inl h)]
  simp [Char.ofNatAux, Char.toNat, UInt32.toNat, UInt32.ofNatCore]

theorem toLower_isDigit (c : Char) : c.toLower.isDigit = c.isDigit := by
  by_cases hu : 65 ≤ c.toNat ∧ c.toNat ≤ 90
  · have hv : (Char.ofNat (c.toNat + 32)).toNat = c.toNat + 32 :=
      toNat_ofNat_small (by omega)
    have ha : (Char.ofNat (c.toNat + 32)).isDigit = false := by
      rw [Bool.eq_false_iff]
      intro hd
      have hb := isDigit_toNat hd
      rw [hv] at hb
      omega
    have hb : c.isDigit = false := by
      rw [Bool.eq_false_iff]
      intro hd
      have hbd := isDigit_toNat hd
      omega
    simp only [Char.toLower]
    rw [if_pos hu, ha, hb]
  · rw [toLower_eq_self hu]

theorem dropWhile_eq_self_of_head {p : Char → Bool} {l : List Char}
    (h : ∀ c ∈ l.head?, p c = false) : l.dropWhile p = l := by
  cases l with
  | nil => rfl
  | cons a t =>
    rw [List.dropWhile_cons, if_neg]
    simp only [List.head?_cons, Option.mem_some_iff] at h
    rw [h a rfl]
    simp

theorem pyStrip_eq_self {l : List Char}
    (h1 : ∀ c ∈ l.head?, c.isWhitespace = false)
    (h2 : ∀ c ∈ l.getLast?, c.isWhitespace = false) : pyStrip l = l := by
  unfold pyStrip
  rw [dropWhile_eq_self_of_head h1]
  rw [dropWhile_eq_self_of_head (by simpa [List.head?_reverse] using h2)]
  exact List.reverse_reverse l

theorem pyLower_eq_self {l : List Char}
    (h : ∀ c ∈ l, ¬(65 ≤ c.toNat ∧ c.toNat ≤ 90)) : pyLower l = l := by
  unfold pyLower
  rw [List.map_congr_left (fun c hc => toLower_eq_self (h c hc))]
  exact List.map_id l

theorem replaceGo_eq_self {pat rep : List Char} {c : Char} (hc : c ∈ pat) :
    ∀ (fuel : Nat) (l : List Char), c ∉ l → replaceGo pat rep fuel l = l := by
  intro fuel
  induction fuel with
  | zero => intro l _; cases l <;> rfl
  | succ fuel ih =>
    intro l hl
    cases l with
    | nil => rfl
    | cons a t =>
      rw [replaceGo, if_neg]
      · rw [ih t (fun hm => hl (by simp [hm]))]
      · intro hp
        have hpre : pat <+: a :: t := List.isPrefixOf_iff_prefix.mp hp.1
        exact hl (hpre.subset hc)

theorem replaceL_eq_self {pat rep : List Char} {c : Char} (hc : c ∈ pat)
    {l : List Char} (hl : c ∉ l) : replaceL pat rep l = l :=
  replaceGo_eq_self hc l.length l hl

theorem mem_replaceGo {pat rep : List Char} :
    ∀ (fuel : Nat) (l : List Char) (x : Char),
      x ∈ replaceGo pat rep fuel l → x ∈ rep ∨ x ∈ l := by
  intro fuel
  induction fuel with
  | zero =>
    intro l x hx
    cases l with
    | nil => cases hx
    | cons a t => exact Or.inr hx
  | succ fuel ih =>
    intro l x hx
    cases l with
    | nil => cases hx
    | cons a t =>
      rw [replaceGo] at hx
      split at hx
      · rcases List.mem_append.mp hx with h | h
        · exact Or.inl h
        · rcases ih _ _ h with h' | h'
          · exact Or.inl h'
          · exact Or.inr (by simp [List.mem_of_mem_drop h'])
      · rcases List.mem_cons.mp hx with h | h
        · exact Or.inr (by simp [h])
        · rcases ih _ _ h with h' | h'
          · exact Or.inl h'
          · exact Or.inr (by simp [h'])

theorem takeWhile_append_all {p : Char → Bool} {l1 l2 : List Char}
    (h1 : ∀ c ∈ l1, p c = true) (h2 : ∀ c ∈ l2.head?, p c = false) :
    (l1 ++ l2).takeWhile p = l1 := by
  induction l1 with
  | nil =>
    cases l2 with
    | nil => rfl
    | cons a t =>
      simp only [List.nil_append, List.takeWhile_cons]
      rw [h2 a (by simp), if_neg (by simp)]
  | cons a t ih =>
    simp only [List.cons_append, List.takeWhile_cons]
    rw [h1 a (by simp), if_pos rfl]
    rw [ih (fun c hc => h1 c (by simp [hc]))]

theorem dropWhile_append_all {p : Char → Bool} {l1 l2 : List Char}
    (h1 : ∀ c ∈ l1, p c = true) (h2 : ∀ c ∈ l2.head?, p c = false) :
    (l1 ++ l2).dropWhile p = l2 := by
  induction l1 with
  | nil => exact dropWhile_eq_self_of_head h2
  | cons a t ih =>
    simp only [List.cons_append, List.dropWhile_cons]
    rw [h1 a (by simp), if_pos rfl]
    exact ih (fun c hc => h1 c (by simp [hc]))

theorem span_append_all {p : Char → Bool} {l1 l2 : List Char}
    (h1 : ∀ c ∈ l1, p c = true) (h2 : ∀ c ∈ l2.head?, p c = false) :
    (l1 ++ l2).span p = (l1, l2) := by
  rw [List.span_eq_take_drop, takeWhile_append_all h1 h2,
    dropWhile_append_all h1 h2]

/-- Characters appearing in the canonical duration forms. -/
theorem form_not_upper {c : Char}
    (h : c.isDigit = true ∨ c = 'm' ∨ c = 's' ∨ c = ' ') :
    ¬(65 ≤ c.toNat ∧ c.toNat ≤ 90) := by
  rcases h with h | h | h | h
  · have := isDigit_toNat h
    omega
  · subst h; decide
  · subst h; decide
  · subst h; decide

theorem form_no_mem (d : Char) {l : List Char}
    (hl : ∀ c ∈ l, c.isDigit = true ∨ c = 'm' ∨ c = 's' ∨ c = ' ')
    (hd : d.isDigit = false) (hm : d ≠ 'm') (hs : d ≠ 's') (hsp : d ≠ ' ') :
    d ∉ l := by
  intro hmem
  rcases hl d hmem with h | h | h | h
  · rw [hd] at h; cases h
  · exact hm h
  · exact hs h
  · exact hsp h

/-- The lower/strip/unit-replacement pipeline of `parse_duration` is the
identity on strings made of digits, `m`, `s` and inner spaces. -/
theorem munge_eq_self (l : List Char)
    (hl : ∀ c ∈ l, c.isDigit = true ∨ c = 'm' ∨ c = 's' ∨ c = ' ')
    (hhead : ∀ c ∈ l.head?, c.isWhitespace = false)
    (hlast : ∀ c ∈ l.getLast?, c.isWhitespace = false) :
    replaceL ['m', 'i', 'n'] ['m'] (replaceL ['m', 'i', 'n', 's'] ['m']
      (replaceL ['s', 'e', 'c', 'o', 'n', 'd'] ['s']
        (replaceL ['s', 'e', 'c', 'o', 'n', 'd', 's'] ['s']
          (replaceL ['s', 'e', 'c'] ['s'] (pyLower (pyStrip l)))))) = l := by
  have he : 'e' ∉ l := form_no_mem 'e' hl (by decide) (by decide) (by decide) (by decide)
  have hi : 'i' ∉ l := form_no_mem 'i' hl (by decide) (by decide) (by decide) (by decide)
  rw [pyStrip_eq_self hhead hlast,
    pyLower_eq_self (fun c hc => form_not_upper (hl c hc)),
    replaceL_eq_self (show 'e' ∈ ['s', 'e', 'c'] by decide) he,
    replaceL_eq_self (show 'e' ∈ ['s', 'e', 'c', 'o', 'n', 'd', 's'] by decide) he,
    replaceL_eq_self (show 'e' ∈ ['s', 'e', 'c', 'o', 'n', 'd'] by decide) he,
    replaceL_eq_self (show 'i' ∈ ['m', 'i', 'n', 's'] by decide) hi,
    replaceL_eq_self (show 'i' ∈ ['m', 'i', 'n'] by decide) hi]

theorem filter_space_digits {d : List Char} (hd : ∀ c ∈ d, c.isDigit = true) :
    d.filter (fun c => c ≠ ' ') = d :=
  List.filter_eq_self.mpr (fun c hc => by
    have hne : c ≠ ' ' := char_ne_of_isDigit (hd c hc) (by decide)
    simp [hne])

theorem matchMS_eval_ms (d1 d2 : List Char) (h1 : d1 ≠ []) (h2 : d2 ≠ [])
    (hd1 : ∀ c ∈ d1, c.isDigit = true) (hd2 : ∀ c ∈ d2, c.isDigit = true) :
    matchMS (d1 ++ 'm' :: (d2 ++ ['s'])) = some (digitsToNat d1, digitsToNat d2) := by
  have hspan1 : (d1 ++ 'm' :: (d2 ++ ['s'])).span Char.isDigit
      = (d1, 'm' :: (d2 ++ ['s'])) := by
    apply span_append_all hd1
    intro c hc
    simp only [List.head?_cons, Option.mem_some_iff] at hc
    subst hc
    decide
  have hspan2 : (d2 ++ ['s']).span Char.isDigit = (d2, ['s']) := by
    apply span_append_all hd2
    intro c hc
    simp only [List.head?_cons, Option.mem_some_iff] at hc
    subst hc
    decide
  unfold matchMS
  rw [hspan1]
  rw [if_pos ⟨h1, rfl⟩]
  simp only [List.tail_cons]
  rw [hspan2]
  rw [if_neg h2]
  simp

theorem matchMS_eval_m (d : List Char) (h1 : d ≠ [])
    (hd : ∀ c ∈ d, c.isDigit = true) :
    matchMS (d ++ ['m']) = some (digitsToNat d, 0) := by
  have hspan1 : (d ++ ['m']).span Char.isDigit = (d, ['m']) := by
    apply span_append_all hd
    intro c hc
    simp only [List.head?_cons, Option.mem_some_iff] at hc
    subst hc
    decide
  unfold matchMS
  rw [hspan1]
  rw [if_pos ⟨h1, rfl⟩]
  simp only [List.tail_cons]
  rw [show List.span Char.isDigit ([] : List Char) = ([], []) from rfl]
  simp

theorem matchMS_eval_s (d : List Char) (h1 : d ≠ [])
    (hd : ∀ c ∈ d, c.isDigit = true) :
    matchMS (d ++ ['s']) = some (0, digitsToNat d) := by
  have hspan1 : (d ++ ['s']).span Char.isDigit = (d, ['s']) := by
    apply span_append_all hd
    intro c hc
    simp only [List.head?_cons, Option.mem_some_iff] at hc
    subst hc
    decide
  unfold matchMS
  rw [hspan1]
  rw [if_neg (by simp)]
  rw [if_neg (by simpa using h1)]
  simp

theorem matchMS_eval_bare (d : List Char) (h1 : d ≠ [])
    (hd : ∀ c ∈ d, c.isDigit = true) :
    matchMS d = some (0, digitsToNat d) := by
  have hspan1 : d.span Char.isDigit = (d, []) := by
    have h0 : (d ++ ([] : List Char)).span Char.isDigit = (d, []) :=
      span_append_all hd (by simp)
    simpa using h0
  unfold matchMS
  rw [hspan1]
  rw [if_neg (by simp)]
  rw [if_neg (by simpa using h1)]
  simp

theorem data_mk (l : List Char) : (String.mk l).data = l := rfl

theorem parse_duration_via (l S : List Char) (a b : Nat)
    (hl : ∀ c ∈ l, c.isDigit = true ∨ c = 'm' ∨ c = 's' ∨ c = ' ')
    (hhead : ∀ c ∈ l.head?, c.isWhitespace = false)
    (hlast : ∀ c ∈ l.getLast?, c.isWhitespace = false)
    (hfil : l.filter (fun c => c ≠ ' ') = S)
    (hS : ¬(S = [] ∨ S = ['0'] ∨ S = ['s']))
    (hmatch : matchMS S = some (a, b)) :
    parse_duration (some (String.mk l)) = a * 60 + b := by
  rw [parse_duration, data_mk, munge_eq_self l hl hhead hlast, hfil,
    if_neg hS, hmatch]

theorem mem_form_of_digit {d : List Char} (hd : ∀ c ∈ d, c.isDigit = true) :
    ∀ c ∈ d, c.isDigit = true ∨ c = 'm' ∨ c = 's' ∨ c = ' ' :=
  fun c hc => Or.inl (hd c hc)

theorem head_ws_of_digit {x : Char} {r : List Char} (hx : x.isDigit = true) :
    ∀ c ∈ (x :: r).head?, c.isWhitespace = false := by
  intro c hc
  simp only [List.head?_cons, Option.mem_some_iff] at hc
  subst hc
  exact isDigit_not_ws hx

theorem last_ws_concat {r : List Char} {y : Char} (hy : y.isWhitespace = false) :
    ∀ c ∈ (r ++ [y]).getLast?, c.isWhitespace = false := by
  rw [List.getLast?_concat]
  intro c hc
  simp only [Option.mem_some_iff] at hc
  subst hc
  exact hy

theorem cons_ne_specials {x : Char} {r : List Char} (hr : r ≠ []) :
    ¬(x :: r = [] ∨ x :: r = ['0'] ∨ x :: r = ['s']) := by
  intro h
  rcases h with h | h | h
  · cases h
  · simp at h
    exact hr h.2
  · simp at h
    exact hr h.2

theorem parse_duration_ms_form (d1 d2 : List Char) (h1 : d1 ≠ []) (h2 : d2 ≠ [])
    (hd1 : ∀ c ∈ d1, c.isDigit = true) (hd2 : ∀ c ∈ d2, c.isDigit = true) :
    parse_duration (some (String.mk (d1 ++ 'm' :: ' ' :: (d2 ++ ['s']))))
      = digitsToNat d1 * 60 + digitsToNat d2 := by
  obtain ⟨x, t, rfl⟩ := List.exists_cons_of_ne_nil h1
  refine parse_duration_via _ ((x :: t) ++ 'm' :: (d2 ++ ['s'])) _ _
    ?_ (head_ws_of_digit (hd1 x (by simp))) ?_ ?_ ?_
    (matchMS_eval_ms _ _ (by simp) h2 hd1 hd2)
  · intro c hc
    rcases List.mem_append.mp hc with h | h
    · exact Or.inl (hd1 c h)
    · rcases List.mem_cons.mp h with h | h
      · exact Or.inr (Or.inl h)
      · rcases List.mem_cons.mp h with h | h
        · exact Or.inr (Or.inr (Or.inr h))
        · rcases List.mem_append.mp h with h | h
          · exact Or.inl (hd2 c h)
          · simp at h
            exact Or.inr (Or.inr (Or.inl h))
  · have hrw : (x :: t) ++ 'm' :: ' ' :: (d2 ++ ['s'])
        = ((x :: t) ++ 'm' :: ' ' :: d2) ++ ['s'] := by simp
    rw [hrw]
    exact last_ws_concat (by decide)
  · rw [List.filter_append, filter_space_digits hd1]
    have hin : ('m' :: ' ' :: (d2 ++ ['s'])).filter (fun c => c ≠ ' ')
        = 'm' :: (d2 ++ ['s']) := by
      simp only [List.filter_cons, List.filter_append, List.filter_nil,
        filter_space_digits hd2]
      simp
    rw [hin]
  · rw [List.cons_append]
    exact cons_ne_specials (by cases t <;> simp)

theorem parse_duration_m_form (d : List Char) (h1 : d ≠ [])
    (hd : ∀ c ∈ d, c.isDigit = true) :
    parse_duration (some (String.mk (d ++ ['m']))) = digitsToNat d * 60 := by
  obtain ⟨x, t, rfl⟩ := List.exists_cons_of_ne_nil h1
  have h := parse_duration_via ((x :: t) ++ ['m']) ((x :: t) ++ ['m'])
    (digitsToNat (x :: t)) 0
    (fun c hc => by
      rcases List.mem_append.mp hc with h | h
      · exact Or.inl (hd c h)
      · simp at h
        exact Or.inr (Or.inl h))
    (head_ws_of_digit (hd x (by simp)))
    (last_ws_concat (by decide))
    (by
      rw [List.filter_append, filter_space_digits hd]
      simp)
    (by
      rw [List.cons_append]
      exact cons_ne_specials (by cases t <;> simp))
    (matchMS_eval_m _ (by simp) hd)
  simpa using h

theorem parse_duration_s_form (d : List Char) (h1 : d ≠ [])
    (hd : ∀ c ∈ d, c.isDigit = true) :
    parse_duration (some (String.mk (d ++ ['s']))) = digitsToNat d := by
  obtain ⟨x, t, rfl⟩ := List.exists_cons_of_ne_nil h1
  have h := parse_duration_via ((x :: t) ++ ['s']) ((x :: t) ++ ['s'])
    0 (digitsToNat (x :: t))
    (fun c hc => by
      rcases List.mem_append.mp hc with h | h
      · exact Or.inl (hd c h)
      · simp at h
        exact Or.inr (Or.inr (Or.inl h)))
    (head_ws_of_digit (hd x (by simp)))
    (last_ws_concat (by decide))
    (by
      rw [List.filter_append, filter_space_digits hd]
      simp)
    (by
      rw [List.cons_append]
      exact cons_ne_specials (by cases t <;> simp))
    (matchMS_eval_s _ (by simp) hd)
  simpa using h

theorem parse_duration_bare_form (d : List Char) (h1 : d ≠ [])
    (hd : ∀ c ∈ d, c.isDigit = true) :
    parse_duration (some (String.mk d)) = digitsToNat d := by
  by_cases h0 : d = ['0']
  · subst h0
    decide
  · obtain ⟨x, t, rfl⟩ := List.exists_cons_of_ne_nil h1
    have h := parse_duration_via (x :: t) (x :: t) 0 (digitsToNat (x :: t))
      (mem_form_of_digit hd)
      (head_ws_of_digit (hd x (by simp)))
      (by
        intro c hc
        have hmem : c ∈ x :: t := List.mem_of_mem_getLast? hc
        exact isDigit_not_ws (hd c hmem))
      (filter_space_digits hd)
      (by
        intro hcase
        rcases hcase with h | h | h
        · cases h
        · exact h0 h
        · rw [h] at hd
          have hcontra : ('s').isDigit = true := hd 's' (by simp)
          cases hcontra)
      (matchMS_eval_bare _ (by simp) hd)
    simpa using h

theorem mem_pyStrip {l : List Char} {c : Char} (h : c ∈ pyStrip l) : c ∈ l := by
  unfold pyStrip at h
  rw [List.mem_reverse] at h
  have h1 := (List.dropWhile_sublist _).subset h
  rw [List.mem_reverse] at h1
  exact (List.dropWhile_sublist _).subset h1

theorem no_digit_replaceL (pat rep l : List Char)
    (hrep : ∀ c ∈ rep, c.isDigit = false) (hl : ∀ c ∈ l, c.isDigit = false) :
    ∀ c ∈ replaceL pat rep l, c.isDigit = false := fun c hc =>
  (mem_replaceGo _ _ c hc).elim (hrep c) (hl c)

theorem parse_duration_no_digits (s : String)
    (h : ∀ c ∈ s.data, c.isDigit = false) : parse_duration (some s) = 0 := by
  obtain ⟨l⟩ := s
  rw [parse_duration, data_mk]
  have h0 : ∀ c ∈ pyStrip l, c.isDigit = false := fun c hc => h c (mem_pyStrip hc)
  have h1 : ∀ c ∈ pyLower (pyStrip l), c.isDigit = false := by
    intro c hc
    obtain ⟨c0, hc0, rfl⟩ := List.mem_map.mp hc
    rw [toLower_isDigit]
    exact h0 c0 hc0
  have h2 := no_digit_replaceL ['s', 'e', 'c'] ['s'] _ (by decide) h1
  have h3 := no_digit_replaceL ['s', 'e', 'c', 'o', 'n', 'd', 's'] ['s'] _ (by decide) h2
  have h4 := no_digit_replaceL ['s', 'e', 'c', 'o', 'n', 'd'] ['s'] _ (by decide) h3
  have h5 := no_digit_replaceL ['m', 'i', 'n', 's'] ['m'] _ (by decide) h4
  have h6 := no_digit_replaceL ['m', 'i', 'n'] ['m'] _ (by decide) h5
  have hfin : ∀ c ∈ (replaceL ['m', 'i', 'n'] ['m'] (replaceL ['m', 'i', 'n', 's'] ['m']
      (replaceL ['s', 'e', 'c', 'o', 'n', 'd'] ['s']
        (replaceL ['s', 'e', 'c', 'o', 'n', 'd', 's'] ['s']
          (replaceL ['s', 'e', 'c'] ['s'] (pyLower (pyStrip l))))))).filter
            (fun c => c ≠ ' '), c.isDigit = false := by
    intro c hc
    exact h6 c (List.mem_of_mem_filter hc)
  set F := (replaceL ['m', 'i', 'n'] ['m'] (replaceL ['m', 'i', 'n', 's'] ['m']
      (replaceL ['s', 'e', 'c', 'o', 'n', 'd'] ['s']
        (replaceL ['s', 'e', 'c', 'o', 'n', 'd', 's'] ['s']
          (replaceL ['s', 'e', 'c'] ['s'] (pyLower (pyStrip l))))))).filter
            (fun c => c ≠ ' ') with hF
  by_cases hsp : F = [] ∨ F = ['0'] ∨ F = ['s']
  · rw [if_pos hsp]
  · rw [if_neg hsp]
    have hne : F ≠ [] := fun he => hsp (Or.inl he)
    have hmatch : matchMS F = none := by
      cases hFc : F with
      | nil => exact absurd hFc hne
      | cons x t =>
        have hx : x.isDigit = false := hfin x (by rw [hFc]; simp)
        have hspan : (x :: t).span Char.isDigit = ([], x :: t) := by
          rw [List.span_eq_take_drop]
          simp [List.takeWhile_cons, List.dropWhile_cons, hx]
        unfold matchMS
        rw [hspan]
        rw [if_neg (fun hcc => hcc.1 rfl), if_pos rfl, if_neg (by simp)]
    rw [hmatch]
    have hfe : F.filter Char.isDigit = [] := by
      rw [List.filter_eq_nil_iff]
      intro c hc
      rw [hfin c hc]
      simp
    rw [hfe]
    rfl

/-- C9, counterexample: the claim says every otherwise-unparsable value
parses to 0, but the fallback strips non-digits and keeps the rest:
`"1h"` matches no recognised duration form yet parses to 1, not 0. -/
theorem C9_parse_duration_counterexample :
    parse_duration (some "1h") = 1 ∧ parse_duration (some "1h") ≠ 0 := by
  decide

/-- C9, amended claim theorem: `"<m>m <s>s"`, `"<m>m"`, `"<s>s"` and
bare-integer forms parse to `m*60 + s` (with case-insensitive spelled-out
unit variants, witnessed on concrete inputs), missing (NaN) values parse
to 0, and values containing no digit at all parse to 0 without raising;
other unparsable values fall back to the integer formed by their digit
characters rather than 0. -/
theorem C9_parse_duration_amended :
    (∀ d1 d2 : List Char, d1 ≠ [] → d2 ≠ [] →
      (∀ c ∈ d1, c.isDigit = true) → (∀ c ∈ d2, c.isDigit = true) →
      parse_duration (some (String.mk (d1 ++ 'm' :: ' ' :: (d2 ++ ['s']))))
        = digitsToNat d1 * 60 + digitsToNat d2)
    ∧ (∀ d : List Char, d ≠ [] → (∀ c ∈ d, c.isDigit = true) →
        parse_duration (some (String.mk (d ++ ['m']))) = digitsToNat d * 60
        ∧ parse_duration (some (String.mk (d ++ ['s']))) = digitsToNat d
        ∧ parse_duration (some (String.mk d)) = digitsToNat d)
    ∧ parse_duration none = 0
    ∧ (∀ s : String, (∀ c ∈ s.data, c.isDigit = false) →
        parse_duration (some s) = 0)
    ∧ parse_duration (some "2 MIN 3 SeC") = 123
    ∧ parse_duration (some "1 min") = 60
    ∧ parse_duration (some "90 sec") = 90
    ∧ parse_duration (some "5 Seconds") = 5 :=
  ⟨parse_duration_ms_form,
   fun d h1 hd => ⟨parse_duration_m_form d h1 hd,
     parse_duration_s_form d h1 hd, parse_duration_bare_form d h1 hd⟩,
   rfl, parse_duration_no_digits,
   by decide, by decide, by decide, by decide⟩

/-- C9, witness: `"1m 23s"`, `"45s"` and the digit-free `"xy"`. -/
theorem C9_parse_duration_amended_witness :
    parse_duration (some (String.mk (['1'] ++ 'm' :: ' ' :: (['2', '3'] ++ ['s']))))
      = digitsToNat ['1'] * 60 + digitsToNat ['2', '3']
    ∧ parse_duration (some (String.mk (['4', '5'] ++ ['s']))) = digitsToNat ['4', '5']
    ∧ parse_duration (some "xy") = 0 :=
  ⟨C9_parse_duration_amended.1 ['1'] ['2', '3'] (by decide) (by decide)
      (by decide) (by decide),
   (C9_parse_duration_amended.2.1 ['4', '5'] (by decide) (by decide)).2.1,
   C9_parse_duration_amended.2.2.2.1 "xy" (by decide)⟩

/-! ## Time formatting and parsing (the C10 producer/consumer pair)

`hamster_wheel_analyzer.fmt_time` renders `str(timedelta(seconds=
int(seconds_float)))`; `Hamster_stats.parse_hms_to_seconds` splits the
stripped string on `:` into exactly three integer fields. -/

/-- Decimal rendering of a natural number (`str` of a non-negative int). -/
def toDec (n : Nat) : List Char :=
  if n < 10 then [Char.ofNat (48 + n)]
  else toDec (n / 10) ++ [Char.ofNat (48 + n % 10)]
termination_by n
decreasing_by
  exact Nat.div_lt_self (by omega) (by norm_num)

/-- Two-digit zero-padded rendering (`timedelta`'s minute/second fields). -/
def pad2 (n : Nat) : List Char :=
  if n < 10 then '0' :: toDec n else toDec n

/-- The `H:MM:SS` core of `str(timedelta)`. -/
def tdCore (n : Nat) : List Char :=
  toDec (n / 3600) ++ ':' :: (pad2 (n % 3600 / 60) ++ ':' :: pad2 (n % 60))

/-- `str(timedelta(seconds=n))` for a non-negative whole number of
seconds: a `D day(s), ` prefix beyond 24 hours, then `H:MM:SS`. -/
def timedeltaStr (n : Nat) : String :=
  if n < 86400 then String.mk (tdCore (n % 86400))
  else String.mk (toDec (n / 86400)
    ++ (" day".data ++ (if n / 86400 = 1 then [] else ['s']) ++ ", ".data)
    ++ tdCore (n % 86400))

/-- `fmt_time`: `None` renders as `"-"`, otherwise the seconds are
truncated to an integer and rendered through `timedelta` (modelled for
the non-negative timestamps the analyzer produces, where `int`
truncation is the floor). -/
def fmt_time (x : Option Rat) : String :=
  match x with
  | none => "-"
  | some v => timedeltaStr v.floor.toNat

/-- `str.split(sep)` for a single-character separator. -/
def splitOnChar (sep : Char) : List Char → List (List Char)
  | [] => [[]]
  | c :: rest =>
    if c = sep then [] :: splitOnChar sep rest
    else match splitOnChar sep rest with
      | [] => [[c]]
      | x :: xs => (c :: x) :: xs

/-- Python `int(str)`: strip whitespace, optional sign, decimal digits;
anything else raises `ValueError`. -/
def parseInt (l : List Char) : Except String Int :=
  let t := pyStrip l
  if t.head? = some '-' then
    if t.tail ≠ [] ∧ t.tail.all Char.isDigit then
      Except.ok (-(digitsToNat t.tail : Int))
    else Except.error "invalid literal for int"
  else if t.head? = some '+' then
    if t.tail ≠ [] ∧ t.tail.all Char.isDigit then
      Except.ok (digitsToNat t.tail : Int)
    else Except.error "invalid literal for int"
  else if t ≠ [] ∧ t.all Char.isDigit then
    Except.ok (digitsToNat t : Int)
  else Except.error "invalid literal for int"

/-- `parse_hms_to_seconds`: `HH:MM:SS` to total seconds; a field count
other than three, or a non-integer field, raises (modelled as `error`). -/
def parse_hms_to_seconds (s : String) : Except String Int :=
  match splitOnChar ':' (pyStrip s.data) with
  | [h, m, sec] => do
    let hv ← parseInt h
    let mv ← parseInt m
    let sv ← parseInt sec
    pure (hv * 3600 + mv * 60 + sv)
  | _ => Except.error "expected three colon-separated fields"

theorem isDigit_of_toNat {c : Char} (h1 : 48 ≤ c.toNat) (h2 : c.toNat ≤ 57) :
    c.isDigit = true := by
  simp [Char.isDigit]
  exact ⟨h1, h2⟩

theorem ofNat_digit_isDigit {d : Nat} (h : d < 10) :
    (Char.ofNat (48 + d)).isDigit = true := by
  have hv := toNat_ofNat_small (show 48 + d < 55296 by omega)
  exact isDigit_of_toNat (by omega) (by omega)

theorem toDec_digits (n : Nat) : ∀ c ∈ toDec n, c.isDigit = true := by
  induction n using Nat.strong_induction_on with
  | _ n ih =>
    rw [toDec]
    split
    · intro c hc
      simp only [List.mem_singleton] at hc
      subst hc
      exact ofNat_digit_isDigit (by omega)
    · intro c hc
      rcases List.mem_append.mp hc with h | h
      · exact ih (n / 10) (Nat.div_lt_self (by omega) (by norm_num)) c h
      · simp only [List.mem_singleton] at h
        subst h
        exact ofNat_digit_isDigit (Nat.mod_lt _ (by norm_num))

theorem toDec_ne_nil (n : Nat) : toDec n ≠ [] := by
  rw [toDec]
  split
  · simp
  · simp

theorem pad2_digits (n : Nat) : ∀ c ∈ pad2 n, c.isDigit = true := by
  unfold pad2
  split
  · intro c hc
    rcases List.mem_cons.mp hc with h | h
    · subst h; decide
    · exact toDec_digits n c h
  · exact toDec_digits n

theorem pad2_ne_nil (n : Nat) : pad2 n ≠ [] := by
  unfold pad2
  split
  · simp
  · exact toDec_ne_nil n

theorem digitsToNat_append_digit (l : List Char) (c : Char) :
    digitsToNat (l ++ [c]) = 10 * digitsToNat l + (c.toNat - 48) := by
  unfold digitsToNat
  rw [List.foldl_append]
  rfl

theorem digitsToNat_toDec (n : Nat) : digitsToNat (toDec n) = n := by
  induction n using Nat.strong_induction_on with
  | _ n ih =>
    rw [toDec]
    split
    · have hv := toNat_ofNat_small (show 48 + n < 55296 by omega)
      simp [digitsToNat, hv]
    · rw [digitsToNat_append_digit,
        ih (n / 10) (Nat.div_lt_self (by omega) (by norm_num))]
      have hv := toNat_ofNat_small (show 48 + n % 10 < 55296 by
        have := Nat.mod_lt n (show 0 < 10 by norm_num)
        omega)
      rw [hv]
      omega

theorem digitsToNat_pad2 (n : Nat) : digitsToNat (pad2 n) = n := by
  unfold pad2
  split
  · show digitsToNat ('0' :: toDec n) = n
    have : digitsToNat ('0' :: toDec n) = digitsToNat (toDec n) := by
      unfold digitsToNat
      rfl
    rw [this, digitsToNat_toDec]
  · exact digitsToNat_toDec n

theorem pyStrip_all {l : List Char} (h : ∀ c ∈ l, c.isWhitespace = false) :
    pyStrip l = l :=
  pyStrip_eq_self (fun c hc => h c (List.mem_of_mem_head? hc))
    (fun c hc => h c (List.mem_of_mem_getLast? hc))

theorem parseInt_digits (l : List Char) (hne : l ≠ [])
    (hd : ∀ c ∈ l, c.isDigit = true) : parseInt l = Except.ok (digitsToNat l : Int) := by
  unfold parseInt
  rw [pyStrip_all (fun c hc => isDigit_not_ws (hd c hc))]
  obtain ⟨x, t, rfl⟩ := List.exists_cons_of_ne_nil hne
  have hx := hd x (by simp)
  rw [if_neg, if_neg, if_pos]
  · refine ⟨by simp, ?_⟩
    rw [List.all_eq_true]
    exact hd
  · simp only [List.head?_cons, Option.some.injEq]
    exact char_ne_of_isDigit hx (by decide)
  · simp only [List.head?_cons, Option.some.injEq]
    exact char_ne_of_isDigit hx (by decide)

theorem splitOnChar_no_sep (sep : Char) (a : List Char) (ha : sep ∉ a) :
    splitOnChar sep a = [a] := by
  induction a with
  | nil => rfl
  | cons c rest ih =>
    rw [splitOnChar]
    rw [if_neg (fun hc => ha (by simp [hc]))]
    rw [ih (fun hm => ha (by simp [hm]))]

theorem splitOnChar_append (sep : Char) (a r : List Char) (ha : sep ∉ a) :
    splitOnChar sep (a ++ sep :: r) = a :: splitOnChar sep r := by
  induction a with
  | nil =>
    simp only [List.nil_append]
    rw [splitOnChar, if_pos rfl]
  | cons c rest ih =>
    simp only [List.cons_append]
    rw [splitOnChar]
    rw [if_neg (fun hc => ha (by simp [hc]))]
    rw [ih (fun hm => ha (by simp [hm]))]

theorem colon_not_mem_digits {l : List Char} (hd : ∀ c ∈ l, c.isDigit = true) :
    ':' ∉ l := fun hm => by
  have := hd ':' hm
  exact absurd this (by decide)

theorem parse_fmt_core (n : Nat) :
    parse_hms_to_seconds (String.mk (tdCore n)) = Except.ok (((n / 3600 : Nat) * 3600 + (n % 3600 / 60 : Nat) * 60 + (n % 60 : Nat) : Nat) : Int) := by
  unfold parse_hms_to_seconds
  rw [data_mk]
  have hws : ∀ c ∈ tdCore n, c.isWhitespace = false := by
    intro c hc
    unfold tdCore at hc
    rcases List.mem_append.mp hc with h | h
    · exact isDigit_not_ws (toDec_digits _ c h)
    · rcases List.mem_cons.mp h with h | h
      · subst h; decide
      · rcases List.mem_append.mp h with h | h
        · exact isDigit_not_ws (pad2_digits _ c h)
        · rcases List.mem_cons.mp h with h | h
          · subst h; decide
          · exact isDigit_not_ws (pad2_digits _ c h)
  rw [pyStrip_all hws]
  unfold tdCore
  rw [splitOnChar_append ':' _ _ (colon_not_mem_digits (toDec_digits _)),
    splitOnChar_append ':' _ _ (colon_not_mem_digits (pad2_digits _)),
    splitOnChar_no_sep ':' _ (colon_not_mem_digits (pad2_digits _))]
  simp only [parseInt_digits _ (toDec_ne_nil _) (toDec_digits _),
    parseInt_digits _ (pad2_ne_nil _) (pad2_digits _),
    digitsToNat_toDec, digitsToNat_pad2]
  simp only [Except.bind, bind, pure]
  push_cast
  rfl

theorem C10_fmt_parse_roundtrip (t : Rat) (h0 : 0 ≤ t) (h1 : t < 86400) :
    parse_hms_to_seconds (fmt_time (some t)) = Except.ok t.floor := by
  have hfl0 : 0 ≤ t.floor := Rat.le_floor.mpr (by exact_mod_cast h0)
  have hflu : t.floor < 86400 := by
    by_contra hcon
    push_neg at hcon
    have hle : ((86400 : Int) : Rat) ≤ t := Rat.le_floor.mp hcon
    push_cast at hle
    linarith
  have hn : t.floor.toNat < 86400 := by omega
  have hcast : (t.floor.toNat : Int) = t.floor := Int.toNat_of_nonneg hfl0
  show parse_hms_to_seconds (timedeltaStr t.floor.toNat) = _
  unfold timedeltaStr
  rw [if_pos hn, Nat.mod_eq_of_lt hn, parse_fmt_core]
  have hsum : t.floor.toNat / 3600 * 3600 + t.floor.toNat % 3600 / 60 * 60
      + t.floor.toNat % 60 = t.floor.toNat := by omega
  rw [hsum, hcast]

/-- C10, witness: `t = 7/2` seconds renders as `0:00:03` and parses back
to its floor. -/
theorem C10_fmt_parse_roundtrip_witness :
    parse_hms_to_seconds (fmt_time (some (7 / 2 : Rat)))
      = Except.ok ((7 / 2 : Rat).floor) :=
  C10_fmt_parse_roundtrip (7 / 2) (by norm_num) (by norm_num)

/-! ## Day-file loading and folder processing (claim C2)

`load_day_csv` normalises the header (`str.strip().str.lower()`) and
raises `ValueError(f"Unexpected columns in {csv_path}: …")` when any of
the four required columns is missing.  `process_folder` calls it inside
its per-file loop with no `try`/`except`, so the exception aborts the
whole loop.  A day file is its path, header and rows
`(start_time, end_time, state, duration)`. -/

def pyUpper (l : List Char) : List Char := l.map Char.toUpper

structure RawFile where
  path : String
  columns : List String
  rows : List (String × String × String × String)

def requiredCols : List String := ["start_time", "end_time", "state", "duration"]

def normalizedCols (f : RawFile) : List String :=
  f.columns.map (fun c => String.mk (pyLower (pyStrip c.data)))

/-- `load_day_csv`'s required-column guard. -/
def load_day_csv (f : RawFile) :
    Except String (List (String × String × String × String)) :=
  if requiredCols.all (fun c => (normalizedCols f).contains c) then
    Except.ok f.rows
  else
    Except.error ("Unexpected columns in " ++ f.path ++ ": "
      ++ String.intercalate ", " (normalizedCols f))

/-- A day's `total_running_time_s`: the summed parsed durations of its
`IN WHEEL` rows (case-insensitive state match, as `str.upper()`). -/
def dayRowsTotal (rows : List (String × String × String × String)) : Nat :=
  ((rows.filter (fun r => String.mk (pyUpper r.2.2.1.data) = "IN WHEEL")).map
    (fun r => parse_duration (some r.2.2.2))).sum

/-- The per-file loop of `process_folder` restricted to the daily
summary it accumulates: one `(date-path, total)` row per file, with an
uncaught exception aborting the remaining iterations. -/
def processDays (files : List RawFile) :
    Except String (List (String × Nat)) :=
  match files with
  | [] => Except.ok []
  | f :: rest => do
    let rows ← load_day_csv f
    let others ← processDays rest
    pure ((f.path, dayRowsTotal rows) :: others)

def goodFile : RawFile :=
  ⟨"Meds/2024-01-01_wheel_times.csv",
   ["start_time", "end_time", "state", "duration"],
   [("0:00:00", "0:01:00", "IN WHEEL", "1m 0s")]⟩

def badFile : RawFile :=
  ⟨"Meds/2024-01-02_wheel_times.csv",
   ["start_time", "end_time", "duration"], []⟩

/-- C2, counterexample: with one valid day followed by one day file
missing the `state` column, the whole folder run returns the structured
error — the valid day's summary is not produced, so the failure is not
contained to the malformed day. -/
theorem C2_isolation_counterexample :
    processDays [goodFile, badFile]
      = Except.error ("Unexpected columns in Meds/2024-01-02_wheel_times.csv: "
          ++ "start_time, end_time, duration")
    ∧ load_day_csv goodFile = Except.ok goodFile.rows := by
  constructor
  · rfl
  · rfl

/-- C2, amended claim theorem: a malformed day file does fail with a
structured error naming the file, but `process_folder` has no handler:
the first malformed file aborts the folder, and no other day's results
are returned — the error is not isolated to the one day. -/
theorem C2_error_propagates (pre post : List RawFile) (f : RawFile)
    (hpre : ∀ g ∈ pre,
      requiredCols.all (fun c => (normalizedCols g).contains c) = true)
    (hf : requiredCols.all (fun c => (normalizedCols f).contains c) = false) :
    processDays (pre ++ f :: post)
      = Except.error ("Unexpected columns in " ++ f.path ++ ": "
          ++ String.intercalate ", " (normalizedCols f)) := by
  induction pre with
  | nil =>
    simp only [List.nil_append, processDays]
    unfold load_day_csv
    rw [if_neg (by rw [hf]; simp)]
    rfl
  | cons g pre ih =>
    simp only [List.cons_append, processDays]
    unfold load_day_csv
    rw [if_pos (by rw [hpre g (by simp)])]
    simp only [Except.bind, bind, List.append_eq]
    rw [ih (fun q hq => hpre q (by simp [hq]))]

/-- C2, witness: the concrete good/bad pair instantiating the amended
propagation theorem. -/
theorem C2_error_propagates_witness :
    processDays ([goodFile] ++ badFile :: [])
      = Except.error ("Unexpected columns in " ++ badFile.path ++ ": "
          ++ String.intercalate ", " (normalizedCols badFile)) :=
  C2_error_propagates [goodFile] [] badFile
    (by intro g hg; simp only [List.mem_singleton] at hg; subst hg; decide)
    (by decide)
